import Mathlib

/-!
# Verification of the fastclick middlebox core against its specification

This file gives a shallow embedding of the parts of the repository that the
specification talks about, and proves (or refutes) the spec's claims about
them.  Pure functions of the C++ source become Lean functions; object state
(the Flow Director's per-port rule list, packets) becomes explicit values
passed and returned.  Machine integers are modelled as `Nat`/`Int`, with
explicit `% 2^w` where the source truncates.

Components whose implementation is present under the repository sources
(`FlowDirector` in `lib/dpdkdevice.cc`, `IPElement` in
`elements/middlebox/ipelement.cc`, `HTTPServer` in
`elements/userlevel/httpserver.cc`) are translated from that source.
Components of the repository whose implementation files are absent (only
their headers or declarations are available: `ModificationList`,
`ByteStreamMaintainer`, `TCPReorder`) are modelled from the specification's
own words; each such definition is marked `Modelled from the spec:` in its
doc comment.
-/

/-! ## Flow Director (`lib/dpdkdevice.cc`)

The Flow Director keeps, per DPDK port, a vector `_rule_list` of pointers to
`struct port_flow` objects.  We model one port's state: the `_active` flag
and the rule list.  C++ `Vector<port_flow *>` copies (`Vector v = ...;`) are
by value, which the embedding renders by binding the list to a local name;
mutating the copy does not change the state. -/

/-- A flow rule object (`struct port_flow`): its rule ID and an opaque
handle standing for the `rte_flow` pointer. -/
structure PortFlow where
  rule_id : Nat
  flow : Nat
  deriving DecidableEq, Repr

/-- The per-port state of a `FlowDirector` instance: the `_active` flag and
the `_rule_list` vector. -/
structure FlowDirState where
  active : Bool
  rule_list : List PortFlow
  deriving DecidableEq, Repr

/-- `FlowDirector::flow_rule_get` (dpdkdevice.cc:234-250).  The source
copies the port's rule vector into a local, returns the null pointer when
that copy is *non-empty* (`if (!port_rules.empty()) return 0;`), and
otherwise scans the (necessarily empty) copy for a matching `rule_id`. -/
def flow_rule_get (port_rules : List PortFlow) (rule_id : Nat) : Option PortFlow :=
  if !port_rules.isEmpty then
    none
  else
    port_rules.find? (fun r => r.rule_id == rule_id)

/-- `FlowDirector::flow_rule_delete` (dpdkdevice.cc:259-307).  The result
records the returned boolean together with whether the `rte_flow_destroy`
call site was reached.  In the source, reaching it destroys the rule and
(on success) returns true; the branch is kept so that the embedding covers
the whole function body. -/
def flow_rule_delete (s : FlowDirState) (rule_id : Nat) : Bool × Bool :=
  if !s.active then
    (false, false)
  else
    match flow_rule_get s.rule_list rule_id with
    | none => (false, false)
    | some _ => (true, true)

/-- `FlowDirector::flow_rules_count` (dpdkdevice.cc:315-328): 0 for an
inactive port, otherwise the size of the port's rule vector. -/
def flow_rules_count (s : FlowDirState) : Nat :=
  if !s.active then
    0
  else
    s.rule_list.length

/-- `FlowDirector::memory_clean` (dpdkdevice.cc:382-414).  The source binds
`Vector<struct port_flow *> port_rules = _dev_flow_dir[port_id]->_rule_list;`
— a by-value copy — then deletes each pointed-to object and calls
`port_rules.clear()` on the *copy*.  The stored `_rule_list` is untouched,
so the returned state equals the input state. -/
def memory_clean (s : FlowDirState) : Nat × FlowDirState :=
  let port_rules := s.rule_list
  if port_rules.isEmpty then
    (0, s)
  else
    -- the loop deletes each non-NULL entry of the copy and counts it; the
    -- pointers in our model are all valid, so the count is the length, and
    -- `port_rules.clear()` empties only the local copy
    let rules_flushed := port_rules.length
    (rules_flushed, s)

/-- `FlowDirector::flow_rules_flush` (dpdkdevice.cc:336-374).
`nic_flush_ok` stands for the outcome of the external `rte_flow_flush`
call; when it fails the source returns the value of `flow_rule_complain`
(abstracted here as 0, irrelevant to the claims) without touching memory. -/
def flow_rules_flush (s : FlowDirState) (nic_flush_ok : Bool) : Nat × FlowDirState :=
  if !s.active then
    (0, s)
  else if s.rule_list.isEmpty then
    (0, s)
  else if !nic_flush_ok then
    (0, s)
  else
    memory_clean s

/-! ## IPElement (`elements/middlebox/ipelement.cc`)

A packet is a byte buffer together with the offset of its IP header
(`packet->ip_header()` is `packet->data() + ipOff`).  Byte values are `Nat`s
below 256.  The `click_ip` header layout (RFC 791): byte 0 low nibble is
`ip_hl`, bytes 2-3 are `ip_len` in network order, bytes 10-11 are `ip_sum`
in network order. -/

/-- A packet buffer with the IP header at offset `ipOff`. -/
structure Packet where
  data : List Nat
  ipOff : Nat
  deriving DecidableEq, Repr

/-- Read byte `i` of a buffer (0 beyond the end; real accesses are guarded
by the validity hypotheses of the theorems below). -/
def getByte (data : List Nat) (i : Nat) : Nat :=
  data.getD i 0

/-- `iph->ip_hl`: the low nibble of the first header byte. -/
def ip_hl (p : Packet) : Nat :=
  getByte p.data p.ipOff % 16

/-- `iph->ip_hl << 2`: the IP header length in bytes. -/
def headerLen (p : Packet) : Nat :=
  ip_hl p * 4

/-- `IPElement::packetTotalLength` (ipelement.cc:20-25):
`ntohs(iph->ip_len)`, reading the two length bytes in network order. -/
def packetTotalLength (p : Packet) : Nat :=
  getByte p.data (p.ipOff + 2) * 256 + getByte p.data (p.ipOff + 3)

/-- `IPElement::setPacketTotalLength` (ipelement.cc:32-36):
`iph->ip_len = htons(length)`; `htons` truncates the `unsigned` argument to
16 bits and the two bytes are stored in network order. -/
def setPacketTotalLength (p : Packet) (length : Nat) : Packet :=
  let v := length % 65536
  { p with data := (p.data.set (p.ipOff + 2) (v / 256)).set (p.ipOff + 3) (v % 256) }

/-- Modelled from the spec: `click_in_cksum`'s 16-bit word accumulation (the
function's body lives outside the provided sources).  Bytes are paired
big-endianly into 16-bit words; a trailing odd byte is the high byte of a
final word, per the standard Internet checksum. -/
def sumWords : List Nat → Nat
  | [] => 0
  | [b] => b * 256
  | b1 :: b2 :: rest => b1 * 256 + b2 + sumWords rest

/-- Modelled from the spec: the end-around-carry folding of the one's
complement sum down to 16 bits. -/
def foldCarries (x : Nat) : Nat :=
  if h : x < 65536 then x
  else foldCarries (x % 65536 + x / 65536)
termination_by x
decreasing_by
  simp only [not_lt] at h
  omega

/-- Modelled from the spec: `click_in_cksum bytes` is the standard one's
complement Internet checksum of `bytes` — the complement of the folded
16-bit one's complement sum. -/
def click_in_cksum (bytes : List Nat) : Nat :=
  65535 - foldCarries (sumWords bytes)

/-- `IPElement::computeChecksum` (ipelement.cc:39-48): zero `ip_sum`,
checksum exactly the `hlen = ip_hl << 2` header bytes starting at the IP
header, and store the result in `ip_sum` (network order).  The source also
computes an unused local `plen`; it has no effect and is omitted. -/
def computeChecksum (p : Packet) : Packet :=
  let hlen := headerLen p
  let zeroed := (p.data.set (p.ipOff + 10) 0).set (p.ipOff + 11) 0
  let ck := click_in_cksum ((zeroed.drop p.ipOff).take hlen)
  { p with data := (zeroed.set (p.ipOff + 10) (ck / 256)).set (p.ipOff + 11) (ck % 256) }

/-- The header bytes that `computeChecksum` folds over: the `hlen` bytes at
the IP header, with the `ip_sum` field zeroed. -/
def zeroedHeaderBytes (p : Packet) : List Nat :=
  ((((p.data.set (p.ipOff + 10) 0).set (p.ipOff + 11) 0).drop p.ipOff).take (headerLen p))

/-! ## HTTPServer (`elements/userlevel/httpserver.cc`)

`ahc_echo` has already resolved the target element and split the remaining
path into a handler name and a parameter when it dispatches on the method.
We embed the `DELETE` branch (httpserver.cc:238-252): the handler name is
prefixed with `delete_`, looked up on the element, and when present and
visible its write callback is invoked with the parameter. -/

/-- A Click handler as seen by the dispatch code: visibility and the
`call_write` callback (returning the C `int` status). -/
structure Handler where
  visible : Bool
  writeFn : String → Int

/-- The `DELETE` branch of `HTTPServer::ahc_echo`.  `handlerOf` is
`Router::handler(e, ·)` for the resolved element `e`; `url` and `ename` only
feed the 404 body.  Returns (HTTP status, body). -/
def ahc_echo_delete (handlerOf : String → Option Handler)
    (url ename hname param : String) : Nat × String :=
  let hname := "delete_" ++ hname
  match handlerOf hname with
  | some h =>
    if h.visible then
      (200, if h.writeFn param = 0 then "success" else "error")
    else
      -- bad_handler; the C body quotes the url
      (404, "Invalid path " ++ url ++ " or no " ++ hname ++ " in " ++ ename)
  | none =>
      (404, "Invalid path " ++ url ++ " or no " ++ hname ++ " in " ++ ename)

/-! ## ModificationList (`include/click/modificationlist.hh`)

Only the class declaration is among the provided sources; the method bodies
are modelled from the specification (§4.2).  A modification node is a
`(position, offset)` pair — `position : unsigned int` as `Nat`, `offset :
int` as `Int` — and the list keeps the nodes plus the `committed` flag. -/

/-- The state of a `ModificationList`: the linked list of
`ModificationNode`s (as position/offset pairs) and the `committed` flag. -/
structure ModificationList where
  nodes : List (Nat × Int)
  committed : Bool
  deriving DecidableEq, Repr

/-- `ModificationList::sameSign` (declared modificationlist.hh:75):
whether two offsets have the same (strict) sign. -/
def sameSign (first second : Int) : Bool :=
  (decide (0 < first) && decide (0 < second)) || (decide (first < 0) && decide (second < 0))

/-- Modelled from the spec: the position-sorted insertion performed by
`addModification` ("inserts into the list in position-sorted order"). -/
def insertPosSorted (position : Nat) (offset : Int) :
    List (Nat × Int) → List (Nat × Int)
  | [] => [(position, offset)]
  | n :: rest =>
    if position ≤ n.1 then
      (position, offset) :: n :: rest
    else
      n :: insertPosSorted position offset rest

/-- Modelled from the spec: `ModificationList::mergeNodes` ("scans once; any
two adjacent nodes with `position_a == position_b` AND
`sameSign(offset_a, offset_b)` coalesce into `(position_a, offset_a +
offset_b)`.  Opposite-sign collisions at the same position partially
cancel; if the result is zero, the node is removed."). -/
def mergeNodes : List (Nat × Int) → List (Nat × Int)
  | [] => []
  | [n] => [n]
  | a :: b :: rest =>
    if a.1 = b.1 then
      let s := a.2 + b.2
      if s = 0 then
        mergeNodes rest
      else
        mergeNodes ((a.1, s) :: rest)
    else
      a :: mergeNodes (b :: rest)
termination_by l => l.length
decreasing_by
  all_goals simp
  omega

/-- Modelled from the spec: `ModificationList::addModification`
(declared modificationlist.hh:54-62).  "If `committed`, returns false.
Otherwise inserts into the list in position-sorted order, then runs
`mergeNodes()`" and returns true. -/
def addModification (l : ModificationList) (position : Nat) (offset : Int) :
    Bool × ModificationList :=
  if l.committed then
    (false, l)
  else
    (true, { nodes := mergeNodes (insertPosSorted position offset l.nodes),
             committed := false })

/-- Run a sequence of `addModification` calls, collecting the returned
booleans. -/
def applyMods (l : ModificationList) :
    List (Nat × Int) → ModificationList × List Bool
  | [] => (l, [])
  | (position, offset) :: rest =>
    let r := addModification l position offset
    let t := applyMods r.2 rest
    (t.1, r.1 :: t.2)

/-! ## ByteStreamMaintainer (spec §4.3)

The maintainer's implementation file is not among the provided sources; the
sequence-space mapping is modelled from the specification's words.  A
direction's committed state is the sorted sequence `S` of `(posᵢ, deltaᵢ)`
entries. -/

/-- Modelled from the spec: `cum(x) = Σ deltaᵢ for all i where posᵢ ≤ x`
over the committed entry sequence. -/
def cum (entries : List (Nat × Int)) (x : Nat) : Int :=
  match entries with
  | [] => 0
  | e :: rest => (if e.1 ≤ x then e.2 else 0) + cum rest x

/-- Modelled from the spec: `mapSeq(x) = x + cum(x)` (original → modified
sequence space). -/
def mapSeq (entries : List (Nat × Int)) (x : Nat) : Int :=
  (x : Int) + cum entries x

/-- The sum of the absolute deltas of an entry list; bounds how far `cum`
can drop, which makes `mapSeq` unbounded above. -/
def totalAbs : List (Nat × Int) → Nat
  | [] => 0
  | e :: rest => e.2.natAbs + totalAbs rest

/-- Modelled from the spec: `mapSeqRev(y)` = the smallest x with
`mapSeq(x) ≥ y` (modified → original space; also `mapAck`).  Such an x
always exists because `cum` never drops below `-totalAbs`, so `mapSeq` is
unbounded above. -/
def mapSeqRev (entries : List (Nat × Int)) (y : Int) : Nat :=
  Nat.find (show ∃ x : Nat, y ≤ mapSeq entries x by
    have hcum : ∀ (l : List (Nat × Int)) (x : Nat), -(totalAbs l : Int) ≤ cum l x := by
      intro l x
      induction l with
      | nil => simp [cum, totalAbs]
      | cons e rest ih =>
        simp only [cum, totalAbs]
        split <;> omega
    refine ⟨(y + totalAbs entries).toNat, ?_⟩
    have h := hcum entries (y + totalAbs entries).toNat
    simp only [mapSeq]
    omega)

/-- A removed entry `(pos, delta)` (`delta < 0`) erases the original-space
bytes `pos, pos+1, …, pos + |delta| - 1`.  `outsideRemoved entries x` says
x lies in no removed region of any entry. -/
@[reducible] def outsideRemoved (entries : List (Nat × Int)) (x : Nat) : Prop :=
  ∀ e ∈ entries, e.2 < 0 → (x < e.1 ∨ (e.1 : Int) - e.2 ≤ (x : Int))

/-- The spec's stated maintainer invariant (§3): "entries are strictly
increasing in `position`; consecutive entries never have offsets of the
same sign". -/
@[reducible] def statedInvariant (entries : List (Nat × Int)) : Prop :=
  List.Chain' (fun e f => e.1 < f.1 ∧ sameSign e.2 f.2 = false) entries

/-- The stated invariant strengthened with non-overlap: each removed
region ends at or before the next entry's position (no byte of the
original stream is removed twice).  Any state reachable by editing an
actual byte stream satisfies this. -/
def wfEntries : List (Nat × Int) → Bool
  | [] => true
  | [_] => true
  | e :: f :: rest =>
    (decide (e.1 < f.1) && !sameSign e.2 f.2 &&
      (decide (0 ≤ e.2) || decide ((e.1 : Int) - e.2 ≤ (f.1 : Int)))) &&
    wfEntries (f :: rest)

/-- The pairwise relation that `wfEntries` induces between any earlier
entry and any later one. -/
def entryRel (e f : Nat × Int) : Prop :=
  e.1 < f.1 ∧ (e.2 < 0 → (e.1 : Int) - e.2 ≤ (f.1 : Int))

/-! ## TCPReorder (`elements/middlebox/tcpreorder.hh`)

Only the class declaration and `TCPREORDER_POOL_SIZE` are among the
provided sources; the per-direction hold-list behaviour is modelled from
the specification (§4.4).  A held packet is a `(seq, payload_len)` pair and
the hold list is kept sorted by `seq`. -/

/-- `TCPREORDER_POOL_SIZE` (tcpreorder.hh:16). -/
def TCPREORDER_POOL_SIZE : Nat := 20

/-- One direction's reorder state: `expected_seq` and the sorted hold
list. -/
structure ReorderState where
  expectedSeq : Nat
  holdList : List (Nat × Nat)
  deriving DecidableEq, Repr

/-- Modelled from the spec: `putPacketInList` — insert at the first node
whose `seq` is larger; on an equal `seq`, the longer packet wins (an equal
length is a duplicate and the arrival is dropped). -/
def putPacketInList (pkt : Nat × Nat) : List (Nat × Nat) → List (Nat × Nat)
  | [] => [pkt]
  | q :: rest =>
    if pkt.1 < q.1 then
      pkt :: q :: rest
    else if pkt.1 = q.1 then
      if q.2 < pkt.2 then pkt :: rest else q :: rest
    else
      q :: putPacketInList pkt rest

/-- Modelled from the spec: `sendEligiblePackets` — while the list head
carries exactly `expected_seq`, emit it and advance `expected_seq` by its
payload length (SYN/FIN sequence-space bytes are folded into the length
here). -/
def sendEligiblePackets (expected : Nat) :
    List (Nat × Nat) → Nat × List (Nat × Nat)
  | [] => (expected, [])
  | q :: rest =>
    if q.1 = expected then
      sendEligiblePackets (q.1 + q.2) rest
    else
      (expected, q :: rest)

/-- Modelled from the spec: one packet arrival.  A payload already fully
delivered (`checkRetransmission`) is dropped; otherwise the packet is
placed in the sorted hold list; when that overflows
`TCPREORDER_POOL_SIZE`, the oldest out-of-order packet — the head of the
sorted list, which has been blocking delivery the longest — is discarded;
finally the eligible prefix is emitted. -/
def processPacket (s : ReorderState) (pkt : Nat × Nat) : ReorderState :=
  if pkt.1 < s.expectedSeq && pkt.1 + pkt.2 ≤ s.expectedSeq then
    s
  else
    let l := putPacketInList pkt s.holdList
    let l := if TCPREORDER_POOL_SIZE < l.length then l.tail else l
    let r := sendEligiblePackets s.expectedSeq l
    { expectedSeq := r.1, holdList := r.2 }

/-- A whole arrival sequence in one direction. -/
def processArrivals (s : ReorderState) (pkts : List (Nat × Nat)) : ReorderState :=
  pkts.foldl processPacket s

/-! ## Theorems -/

/-! ### Flow Director claims -/

/-- Helper shared by the `flow_rule_get` and `flow_rule_delete` claims:
the lookup always produces the null pointer. -/
theorem flow_rule_get_none (port_rules : List PortFlow) (rule_id : Nat) :
    flow_rule_get port_rules rule_id = none := by
  unfold flow_rule_get
  cases port_rules with
  | nil => rfl
  | cons r rest => rfl

/-- C1: `FlowDirector::flow_rule_get(port_id, rule_id)` never returns a
rule object.  The guard `if (!port_rules.empty()) return 0;` returns the
null pointer exactly when the port's rule list is non-empty, and on an
empty list the search loop finds nothing — so for every port rule list and
every rule ID the result is the null pointer, even when a rule with the
requested ID is present. -/
theorem flow_rule_get_always_none (port_rules : List PortFlow) (rule_id : Nat) :
    flow_rule_get port_rules rule_id = none :=
  flow_rule_get_none port_rules rule_id

/-- C9: `FlowDirector::flow_rule_delete(port_id, rule_id)` returns `false`
for every state and every rule ID and never reaches `rte_flow_destroy`:
inactive ports fail immediately, and on active ports `flow_rule_get`
always yields the null pointer, taking the "rule not found" branch. -/
theorem flow_rule_delete_always_false (s : FlowDirState) (rule_id : Nat) :
    flow_rule_delete s rule_id = (false, false) := by
  unfold flow_rule_delete
  rw [flow_rule_get_none]
  cases s.active <;> rfl

/-- C10: `FlowDirector::memory_clean` deletes the rule objects through a
by-value copy of `_rule_list` and clears only the copy, so the stored rule
list — hence `flow_rules_count`, also after a full `flow_rules_flush` — is
unchanged. -/
theorem memory_clean_preserves_rule_list (s : FlowDirState) (nic_flush_ok : Bool) :
    (memory_clean s).2.rule_list.length = s.rule_list.length ∧
    (memory_clean s).2 = s ∧
    flow_rules_count (flow_rules_flush s nic_flush_ok).2 = flow_rules_count s := by
  have hmc : (memory_clean s).2 = s := by
    unfold memory_clean
    cases s.rule_list <;> rfl
  refine ⟨by rw [hmc], hmc, ?_⟩
  unfold flow_rules_flush
  cases hA : s.active <;> cases hE : s.rule_list.isEmpty <;>
    cases nic_flush_ok <;> simp [hmc]

/-! ### IPElement claims -/

/-- C7: total-length get/set round-trip.  For a packet whose buffer covers
the `ip_len` field and any `n < 2^16`, `packetTotalLength` after
`setPacketTotalLength p n` returns `n`, and the setter changes no byte of
the packet other than the two `ip_len` bytes. -/
theorem setPacketTotalLength_roundtrip (p : Packet) (n : Nat)
    (hn : n < 65536) (hbuf : p.ipOff + 3 < p.data.length) :
    packetTotalLength (setPacketTotalLength p n) = n ∧
    (setPacketTotalLength p n).ipOff = p.ipOff ∧
    (setPacketTotalLength p n).data.length = p.data.length ∧
    ∀ i, i ≠ p.ipOff + 2 → i ≠ p.ipOff + 3 →
      (setPacketTotalLength p n).data[i]? = p.data[i]? := by
  have hv : n % 65536 = n := Nat.mod_eq_of_lt hn
  have h2 : p.ipOff + 2 < p.data.length := by omega
  have h3' : p.ipOff + 3 < (p.data.set (p.ipOff + 2) (n % 65536 / 256)).length := by
    rw [List.length_set]; omega
  refine ⟨?_, rfl, by simp [setPacketTotalLength], ?_⟩
  · unfold packetTotalLength setPacketTotalLength getByte
    simp only []
    have e3 : ((p.data.set (p.ipOff + 2) (n % 65536 / 256)).set (p.ipOff + 3)
        (n % 65536 % 256))[p.ipOff + 3]? = some (n % 65536 % 256) :=
      List.getElem?_set_eq_of_lt _ h3'
    have e2 : ((p.data.set (p.ipOff + 2) (n % 65536 / 256)).set (p.ipOff + 3)
        (n % 65536 % 256))[p.ipOff + 2]? = some (n % 65536 / 256) := by
      rw [List.getElem?_set_ne (by omega)]
      exact List.getElem?_set_eq_of_lt _ h2
    rw [List.getD_eq_getElem?_getD, List.getD_eq_getElem?_getD, e2, e3]
    simp only [Option.getD_some]
    omega
  · intro i hi2 hi3
    unfold setPacketTotalLength
    simp only []
    rw [List.getElem?_set_ne (by omega), List.getElem?_set_ne (by omega)]

/-- C7 witness: a concrete 20-byte packet at offset 0 with `n = 1234`. -/
theorem setPacketTotalLength_roundtrip_witness :
    1234 < 65536 ∧
    packetTotalLength (setPacketTotalLength
      ⟨[69, 0, 0, 40, 0, 0, 0, 0, 64, 6, 0, 0, 10, 0, 0, 1, 10, 0, 0, 2], 0⟩ 1234) = 1234 := by
  refine ⟨by decide, ?_⟩
  exact (setPacketTotalLength_roundtrip
    ⟨[69, 0, 0, 40, 0, 0, 0, 0, 64, 6, 0, 0, 10, 0, 0, 1, 10, 0, 0, 2], 0⟩ 1234
    (by decide) (by decide)).1

/-! ### HTTPServer claim -/

/-- C8: the `DELETE` branch of `ahc_echo` resolves the handler named
`delete_` + h on the element; if it exists and is visible, its write
callback is invoked with the remaining path component, answering 200 with
body `success` when the write returns 0 and `error` otherwise; when no
such handler exists the status is 404. -/
theorem ahc_echo_delete_spec (handlerOf : String → Option Handler)
    (url ename hname param : String) :
    (∀ h, handlerOf ("delete_" ++ hname) = some h → h.visible = true →
      ahc_echo_delete handlerOf url ename hname param =
        (200, if h.writeFn param = 0 then "success" else "error")) ∧
    (handlerOf ("delete_" ++ hname) = none →
      (ahc_echo_delete handlerOf url ename hname param).1 = 404) := by
  constructor
  · intro h hlook hvis
    simp [ahc_echo_delete, hlook, hvis]
  · intro hlook
    simp [ahc_echo_delete, hlook]

/-- C8 witness: a visible handler whose write succeeds on the concrete
parameter, and the missing-handler 404 case. -/
theorem ahc_echo_delete_spec_witness :
    ahc_echo_delete (fun _ => some ⟨true, fun q => if q = "x" then 0 else 1⟩)
      "u" "e" "cfg" "x" = (200, "success") ∧
    (ahc_echo_delete (fun _ => none) "u" "e" "cfg" "x").1 = 404 := by
  constructor
  · have h := (ahc_echo_delete_spec
      (fun _ => some ⟨true, fun q => if q = "x" then 0 else 1⟩) "u" "e" "cfg" "x").1
      ⟨true, fun q => if q = "x" then 0 else 1⟩ rfl rfl
    rw [h]
    norm_num
  · exact (ahc_echo_delete_spec (fun _ => none) "u" "e" "cfg" "x").2 rfl

/-! ### ModificationList claim -/

/-- C4: once a `ModificationList` is committed, every subsequent
`addModification` call returns false and leaves the list unchanged —
including along any sequence of calls; before a commit, `addModification`
inserts the edit in position-sorted order, runs `mergeNodes`, and returns
true. -/
theorem addModification_after_commit (l : ModificationList)
    (position : Nat) (offset : Int) (ops : List (Nat × Int)) :
    (l.committed = true →
      addModification l position offset = (false, l) ∧
      (applyMods l ops).1 = l ∧
      ∀ b ∈ (applyMods l ops).2, b = false) ∧
    (l.committed = false →
      addModification l position offset =
        (true, ⟨mergeNodes (insertPosSorted position offset l.nodes), false⟩)) := by
  constructor
  · intro hc
    have hadd : ∀ (pos : Nat) (off : Int), addModification l pos off = (false, l) := by
      intro pos off
      unfold addModification
      rw [hc]
      rfl
    refine ⟨hadd position offset, ?_⟩
    induction ops with
    | nil => exact ⟨rfl, by simp [applyMods]⟩
    | cons op rest ih =>
      obtain ⟨pos, off⟩ := op
      simp only [applyMods, hadd]
      refine ⟨ih.1, ?_⟩
      intro b hb
      simp only [List.mem_cons] at hb
      rcases hb with rfl | hb
      · rfl
      · exact ih.2 b hb
  · intro hc
    unfold addModification
    rw [hc]
    rfl

/-- C4 witness: a committed list rejects and keeps its nodes across a
sequence of calls; an uncommitted list accepts, sorting and merging the
edit in. -/
theorem addModification_after_commit_witness :
    (addModification ⟨[(3, 2)], true⟩ 7 (-1) = (false, ⟨[(3, 2)], true⟩) ∧
      (applyMods ⟨[(3, 2)], true⟩ [(7, -1), (1, 5)]).1 = ⟨[(3, 2)], true⟩) ∧
    addModification ⟨[(3, 2)], false⟩ 3 2 = (true, ⟨[(3, 4)], false⟩) := by
  refine ⟨⟨((addModification_after_commit ⟨[(3, 2)], true⟩ 7 (-1) [(7, -1), (1, 5)]).1 rfl).1,
    ((addModification_after_commit ⟨[(3, 2)], true⟩ 7 (-1) [(7, -1), (1, 5)]).1 rfl).2.1⟩, ?_⟩
  have h := (addModification_after_commit ⟨[(3, 2)], false⟩ 3 2 []).2 rfl
  rw [h]
  simp [insertPosSorted, mergeNodes]

/-- C6: `IPElement::computeChecksum` recomputes only the IPv4 header
checksum.  For a packet with a valid IP header (`ip_hl ≥ 5` and the header
inside the buffer) it stores into `ip_sum` the one's-complement checksum
folded over exactly the `hlen = ip_hl * 4` header bytes with the `ip_sum`
field zeroed during the fold, and leaves every byte outside the IP header
unchanged. -/
theorem computeChecksum_spec (p : Packet)
    (hvalid : p.ipOff + headerLen p ≤ p.data.length) (hhl : 5 ≤ ip_hl p) :
    (∀ i, i < p.ipOff ∨ p.ipOff + headerLen p ≤ i →
      (computeChecksum p).data[i]? = p.data[i]?) ∧
    (computeChecksum p).data[p.ipOff + 10]? =
      some (click_in_cksum (zeroedHeaderBytes p) / 256) ∧
    (computeChecksum p).data[p.ipOff + 11]? =
      some (click_in_cksum (zeroedHeaderBytes p) % 256) ∧
    (computeChecksum p).ipOff = p.ipOff ∧
    (computeChecksum p).data.length = p.data.length := by
  have hlen20 : 20 ≤ headerLen p := by
    unfold headerLen
    omega
  have h10 : p.ipOff + 10 < p.data.length := by omega
  have h11 : p.ipOff + 11 < p.data.length := by omega
  have hz10 : p.ipOff + 10 < ((p.data.set (p.ipOff + 10) 0).set (p.ipOff + 11) 0).length := by
    simp only [List.length_set]
    omega
  refine ⟨?_, ?_, ?_, rfl, ?_⟩
  · intro i hi
    simp only [computeChecksum]
    rw [List.getElem?_set_ne (by omega), List.getElem?_set_ne (by omega),
      List.getElem?_set_ne (by omega), List.getElem?_set_ne (by omega)]
  · simp only [computeChecksum, zeroedHeaderBytes]
    rw [List.getElem?_set_ne (by omega)]
    exact List.getElem?_set_eq_of_lt _ hz10
  · simp only [computeChecksum, zeroedHeaderBytes]
    have hz11 : p.ipOff + 11 <
        (((p.data.set (p.ipOff + 10) 0).set (p.ipOff + 11) 0).set (p.ipOff + 10)
          (click_in_cksum (zeroedHeaderBytes p) / 256)).length := by
      simp only [List.length_set]
      omega
    exact List.getElem?_set_eq_of_lt _ (by simpa [zeroedHeaderBytes] using hz11)
  · simp only [computeChecksum, List.length_set]

/-- C6 witness: a concrete 20-byte IPv4 header at offset 0. -/
theorem computeChecksum_spec_witness :
    5 ≤ ip_hl ⟨[69, 0, 0, 40, 0, 1, 0, 0, 64, 6, 170, 170, 10, 0, 0, 1, 10, 0, 0, 2], 0⟩ ∧
    (computeChecksum ⟨[69, 0, 0, 40, 0, 1, 0, 0, 64, 6, 170, 170, 10, 0, 0, 1, 10, 0, 0, 2], 0⟩).data[
      Packet.ipOff ⟨[69, 0, 0, 40, 0, 1, 0, 0, 64, 6, 170, 170, 10, 0, 0, 1, 10, 0, 0, 2], 0⟩ + 10]? =
      some (click_in_cksum (zeroedHeaderBytes
        ⟨[69, 0, 0, 40, 0, 1, 0, 0, 64, 6, 170, 170, 10, 0, 0, 1, 10, 0, 0, 2], 0⟩) / 256) :=
  ⟨by decide,
    (computeChecksum_spec ⟨[69, 0, 0, 40, 0, 1, 0, 0, 64, 6, 170, 170, 10, 0, 0, 1, 10, 0, 0, 2], 0⟩
      (by decide) (by decide)).2.1⟩

/-! ### ByteStreamMaintainer claims -/

/-- `cum` over entries that all lie strictly beyond `z` is zero. -/
theorem cum_eq_zero_of_forall_lt (l : List (Nat × Int)) (z : Nat)
    (h : ∀ e ∈ l, z < e.1) : cum l z = 0 := by
  induction l with
  | nil => rfl
  | cons e rest ih =>
    have he := h e (List.mem_cons_self e rest)
    simp only [cum, if_neg (by omega : ¬ e.1 ≤ z)]
    rw [ih (fun f hf => h f (List.mem_cons_of_mem e hf))]
    omega

/-- Well-formedness restricts to the tail. -/
theorem wfEntries_tail (e : Nat × Int) (rest : List (Nat × Int))
    (h : wfEntries (e :: rest) = true) : wfEntries rest = true := by
  cases rest with
  | nil => rfl
  | cons f rest' =>
    simp only [wfEntries, Bool.and_eq_true] at h
    exact h.2

/-- The head of a well-formed entry list is `entryRel`-related to every
later entry (the adjacent conditions compose transitively). -/
theorem wfEntries_head_rel (e : Nat × Int) (rest : List (Nat × Int))
    (h : wfEntries (e :: rest) = true) : ∀ f ∈ rest, entryRel e f := by
  induction rest generalizing e with
  | nil => intro f hf; cases hf
  | cons f rest' ih =>
    intro g hg
    simp only [wfEntries, Bool.and_eq_true, Bool.or_eq_true, decide_eq_true_eq] at h
    have hef : entryRel e f := by
      refine ⟨h.1.1.1, ?_⟩
      intro hneg
      rcases h.1.2 with h0 | hb
      · omega
      · exact hb
    rcases List.mem_cons.mp hg with rfl | hg'
    · exact hef
    · have hfg := ih f (by
        cases rest' with
        | nil => rfl
        | cons u v =>
          simp only [wfEntries, Bool.and_eq_true] at h ⊢
          exact h.2) g hg'
      exact ⟨lt_trans hef.1 hfg.1, fun hneg => by
        have h1 := hef.2 hneg
        have h2 := hfg.1
        omega⟩

/-- Workhorse for the maintainer claims: if `x` lies outside every removed
region of a well-formed entry list, then `mapSeq` maps every `x' < x`
strictly below `mapSeq x` (the removed spans inside `(x', x]` are disjoint
and sum to fewer than `x - x'` bytes). -/
theorem mapSeq_strict_to_outside (entries : List (Nat × Int)) (x : Nat) :
    wfEntries entries = true → outsideRemoved entries x →
    ∀ x' : Nat, x' < x → mapSeq entries x' < mapSeq entries x := by
  induction entries with
  | nil =>
    intro _ _ x' hlt
    simp only [mapSeq, cum]
    omega
  | cons e rest ih =>
    intro hwf hx x' hlt
    have hwf' : wfEntries rest = true := wfEntries_tail e rest hwf
    have hx' : outsideRemoved rest x := fun f hf => hx f (List.mem_cons_of_mem e hf)
    have hrel := wfEntries_head_rel e rest hwf
    by_cases hpx' : e.1 ≤ x'
    · have hpx : e.1 ≤ x := le_trans hpx' (le_of_lt hlt)
      have hr := ih hwf' hx' x' hlt
      simp only [mapSeq, cum, if_pos hpx', if_pos hpx]
      simp only [mapSeq] at hr
      omega
    · by_cases hpx : e.1 ≤ x
      · rcases lt_or_le e.2 0 with hneg | hpos
        · have hxe : (e.1 : Int) - e.2 ≤ (x : Int) := by
            rcases hx e (List.mem_cons_self e rest) hneg with h | h
            · omega
            · exact h
          have hx''lt : e.1 + e.2.natAbs - 1 < x := by omega
          have hr := ih hwf' hx' (e.1 + e.2.natAbs - 1) hx''lt
          have hc'' : cum rest (e.1 + e.2.natAbs - 1) = 0 :=
            cum_eq_zero_of_forall_lt rest _ (fun f hf => by
              have := (hrel f hf).2 hneg
              omega)
          have hc' : cum rest x' = 0 :=
            cum_eq_zero_of_forall_lt rest x' (fun f hf => by
              have := (hrel f hf).1
              omega)
          simp only [mapSeq, cum, if_pos hpx, if_neg hpx'] at *
          omega
        · have hr := ih hwf' hx' x' hlt
          simp only [mapSeq, cum, if_pos hpx, if_neg hpx'] at *
          omega
      · have hcx : cum rest x = 0 :=
          cum_eq_zero_of_forall_lt rest x (fun f hf => by
            have := (hrel f hf).1
            omega)
        have hcx' : cum rest x' = 0 :=
          cum_eq_zero_of_forall_lt rest x' (fun f hf => by
            have := (hrel f hf).1
            omega)
        simp only [mapSeq, cum, if_neg hpx, if_neg hpx']
        omega

/-- C3 counterexample: the claim as stated is false.  The single entry
`(5, -2)` — a two-byte removal — satisfies the stated invariant (strictly
increasing positions, no equal-sign neighbours), yet `mapSeq 4 = 4 > 3 =
mapSeq 5`: inside a removed region `mapSeq` decreases. -/
theorem mapSeq_monotone_counterexample :
    statedInvariant [(5, -2)] ∧ 4 < 5 ∧
    ¬ (mapSeq [(5, -2)] 4 ≤ mapSeq [(5, -2)] 5) := by
  refine ⟨?_, by omega, by decide⟩
  simp [statedInvariant]

/-- C3 amended: `mapSeq` is monotone between points that avoid the removed
byte ranges.  For a well-formed entry list (stated invariant plus
non-overlapping removed spans) and `x < y` with `y` outside every removed
region, `mapSeq x ≤ mapSeq y`. -/
theorem mapSeq_monotone_outside (entries : List (Nat × Int))
    (hwf : wfEntries entries = true) (x y : Nat) (hxy : x < y)
    (hy : outsideRemoved entries y) :
    mapSeq entries x ≤ mapSeq entries y :=
  le_of_lt (mapSeq_strict_to_outside entries y hwf hy x hxy)

/-- C3 witness: a four-byte insertion at 3 followed by a four-byte removal
at 10; position 14 sits past the removed span `[10, 13]`. -/
theorem mapSeq_monotone_outside_witness :
    wfEntries [(3, 2), (10, -4)] = true ∧
    outsideRemoved [(3, 2), (10, -4)] 14 ∧
    mapSeq [(3, 2), (10, -4)] 2 ≤ mapSeq [(3, 2), (10, -4)] 14 :=
  ⟨by decide, by decide,
    mapSeq_monotone_outside [(3, 2), (10, -4)] (by decide) 2 14 (by omega) (by decide)⟩

/-- `mapSeq` is unbounded above (the existence fact behind `mapSeqRev`,
restated for use through proof irrelevance). -/
theorem mapSeq_unbounded (entries : List (Nat × Int)) (y : Int) :
    ∃ x : Nat, y ≤ mapSeq entries x := by
  have hcum : ∀ (l : List (Nat × Int)) (x : Nat), -(totalAbs l : Int) ≤ cum l x := by
    intro l x
    induction l with
    | nil => simp [cum, totalAbs]
    | cons e rest ih =>
      simp only [cum, totalAbs]
      split <;> omega
  refine ⟨(y + totalAbs entries).toNat, ?_⟩
  have h := hcum entries (y + totalAbs entries).toNat
  simp only [mapSeq]
  omega

/-- `mapSeqRev y` never exceeds a point already mapped at or above `y`. -/
theorem mapSeqRev_le (entries : List (Nat × Int)) (y : Int) (n : Nat)
    (hn : y ≤ mapSeq entries n) : mapSeqRev entries y ≤ n := by
  have h := mapSeq_unbounded entries y
  show Nat.find h ≤ n
  exact Nat.find_le hn

/-- `mapSeqRev y` satisfies its defining property. -/
theorem le_mapSeq_mapSeqRev (entries : List (Nat × Int)) (y : Int) :
    y ≤ mapSeq entries (mapSeqRev entries y) := by
  have h := mapSeq_unbounded entries y
  show y ≤ mapSeq entries (Nat.find h)
  exact Nat.find_spec h

/-- C2 counterexample: the claim as stated is false.  The entries
`[(10, -5), (12, 1), (13, -9)]` satisfy the stated invariant, and `x = 22`
lies outside both removed regions (`[10, 14]` and `[13, 21]`), but the
regions overlap, so `mapSeq 22 = 9 ≤ mapSeq 9` and the smallest preimage
of `mapSeq 22` is at most 9 — not 22. -/
theorem mapSeqRev_roundtrip_counterexample :
    statedInvariant [(10, -5), (12, 1), (13, -9)] ∧
    outsideRemoved [(10, -5), (12, 1), (13, -9)] 22 ∧
    mapSeqRev [(10, -5), (12, 1), (13, -9)]
      (mapSeq [(10, -5), (12, 1), (13, -9)] 22) ≠ 22 := by
  refine ⟨?_, by decide, ?_⟩
  · simp [statedInvariant, sameSign]
  · have hm : mapSeq [(10, -5), (12, 1), (13, -9)] 22 = 9 := by decide
    rw [hm]
    have hle : mapSeqRev [(10, -5), (12, 1), (13, -9)] 9 ≤ 9 :=
      mapSeqRev_le _ 9 9 (by decide)
    omega

/-- C2 amended: for every `y`, `mapSeq (mapSeqRev y) ≥ y`; and for a
well-formed entry list (stated invariant plus non-overlapping removed
spans), `mapSeqRev (mapSeq x) = x` for every `x` outside every removed
region. -/
theorem mapSeq_mapSeqRev_spec (entries : List (Nat × Int)) (y : Int) (x : Nat)
    (hwf : wfEntries entries = true) (hx : outsideRemoved entries x) :
    y ≤ mapSeq entries (mapSeqRev entries y) ∧
    mapSeqRev entries (mapSeq entries x) = x := by
  constructor
  · exact le_mapSeq_mapSeqRev entries y
  · have hle : mapSeqRev entries (mapSeq entries x) ≤ x :=
      mapSeqRev_le entries (mapSeq entries x) x le_rfl
    rcases Nat.lt_or_ge (mapSeqRev entries (mapSeq entries x)) x with hlt | hge
    · exfalso
      have hspec : mapSeq entries x ≤ mapSeq entries (mapSeqRev entries (mapSeq entries x)) :=
        le_mapSeq_mapSeqRev entries (mapSeq entries x)
      have := mapSeq_strict_to_outside entries x hwf hx _ hlt
      omega
    · omega

/-- C2 witness: the round trip at `x = 14`, outside the removed span of
`[(3, 2), (10, -4)]`, and the `≥` direction at `y = 5`. -/
theorem mapSeq_mapSeqRev_spec_witness :
    wfEntries [(3, 2), (10, -4)] = true ∧
    outsideRemoved [(3, 2), (10, -4)] 14 ∧
    ((5 : Int) ≤ mapSeq [(3, 2), (10, -4)] (mapSeqRev [(3, 2), (10, -4)] 5) ∧
      mapSeqRev [(3, 2), (10, -4)] (mapSeq [(3, 2), (10, -4)] 14) = 14) :=
  ⟨by decide, by decide,
    mapSeq_mapSeqRev_spec [(3, 2), (10, -4)] 5 14 (by decide) (by decide)⟩

/-! ### TCPReorder claim -/

/-- Sorted insertion grows the hold list by at most one (an equal-sequence
arrival replaces or is dropped). -/
theorem length_putPacketInList (pkt : Nat × Nat) (l : List (Nat × Nat)) :
    (putPacketInList pkt l).length ≤ l.length + 1 := by
  induction l with
  | nil => simp [putPacketInList]
  | cons q rest ih =>
    simp only [putPacketInList]
    split
    · simp
    · split
      · split <;> simp
      · simpa using Nat.succ_le_succ ih

/-- Emitting the eligible prefix never grows the hold list. -/
theorem length_sendEligiblePackets (expected : Nat) (l : List (Nat × Nat)) :
    (sendEligiblePackets expected l).2.length ≤ l.length := by
  induction l generalizing expected with
  | nil => simp [sendEligiblePackets]
  | cons q rest ih =>
    simp only [sendEligiblePackets]
    split
    · exact le_trans (ih (q.1 + q.2)) (by simp)
    · simp

/-- One arrival keeps the hold list within `TCPREORDER_POOL_SIZE`. -/
theorem processPacket_preserves_bound (s : ReorderState) (pkt : Nat × Nat)
    (h : s.holdList.length ≤ TCPREORDER_POOL_SIZE) :
    (processPacket s pkt).holdList.length ≤ TCPREORDER_POOL_SIZE := by
  unfold processPacket
  split
  · exact h
  · simp only []
    have hb1 : (putPacketInList pkt s.holdList).length ≤ s.holdList.length + 1 :=
      length_putPacketInList pkt s.holdList
    by_cases hc : TCPREORDER_POOL_SIZE < (putPacketInList pkt s.holdList).length
    · simp only [if_pos hc]
      refine le_trans (length_sendEligiblePackets s.expectedSeq _) ?_
      simp only [List.length_tail]
      unfold TCPREORDER_POOL_SIZE at *
      omega
    · simp only [if_neg hc]
      refine le_trans (length_sendEligiblePackets s.expectedSeq _) ?_
      omega

/-- C5: over every sequence of arrivals in one direction, the hold list
never holds more than `TCPREORDER_POOL_SIZE` (= 20) packets — an arrival
at capacity discards the oldest out-of-order packet instead of growing the
list, so buffering is bounded. -/
theorem tcpreorder_hold_list_bounded (s : ReorderState) (pkts : List (Nat × Nat))
    (h : s.holdList.length ≤ TCPREORDER_POOL_SIZE) :
    (processArrivals s pkts).holdList.length ≤ TCPREORDER_POOL_SIZE := by
  induction pkts generalizing s with
  | nil => exact h
  | cons pkt rest ih =>
    exact ih (processPacket s pkt) (processPacket_preserves_bound s pkt h)

/-- C5 witness: out-of-order arrivals from the empty hold list. -/
theorem tcpreorder_hold_list_bounded_witness :
    (processArrivals ⟨1000, []⟩ [(1021, 10), (1011, 10), (1001, 10)]).holdList.length ≤
      TCPREORDER_POOL_SIZE :=
  tcpreorder_hold_list_bounded ⟨1000, []⟩ [(1021, 10), (1011, 10), (1001, 10)] (by decide)
